import Mathlib

/-!
Shallow embedding of the benchmark-analysis engine in
`analyze_benchmarks.py`.

Scores are Python floats; here they are modelled as exact rationals
extended with the IEEE special values the script can actually produce
(positive and negative infinity and NaN).  Sizes are Python ints,
modelled as `ℤ`.  Python raises `ZeroDivisionError` on float or int
division by zero, so every division that is not guarded in the source is
modelled in the `Except Unit` monad, `.error ()` standing for the raised
exception.  Python dicts are modelled as update-folds (last write wins)
together with explicit first-occurrence key lists mirroring dict
insertion order.
-/

/-- Model of a Python float value as produced by the script: an exact
rational, or one of the special values infinity, minus infinity, NaN. -/
inductive PyVal where
  | fin (q : ℚ)
  | pinf
  | ninf
  | nan
deriving DecidableEq, Repr

/-- Python strict comparison `<` on floats: NaN is incomparable (all
comparisons give False), minus infinity is below all other values,
plus infinity above all finite values. -/
def pyLt : PyVal → PyVal → Bool
  | .nan, _ => false
  | _, .nan => false
  | .ninf, .ninf => false
  | .ninf, _ => true
  | _, .ninf => false
  | .pinf, _ => false
  | .fin _, .pinf => true
  | .fin a, .fin b => decide (a < b)

/-- Total order used to model Python `sorted` on floats: minus infinity,
then finite values, then plus infinity.  It agrees with the Python
comparison on every NaN-free pair; the script never sorts NaN values
(Python `sorted` on NaN is unspecified, and this model places NaN
last). -/
def pyLe : PyVal → PyVal → Bool
  | .ninf, _ => true
  | _, .ninf => false
  | _, .nan => true
  | .nan, _ => false
  | .fin a, .fin b => decide (a ≤ b)
  | .fin _, .pinf => true
  | .pinf, .fin _ => false
  | .pinf, .pinf => true

/-- Python float addition on the modelled values. -/
def pyAdd : PyVal → PyVal → PyVal
  | .nan, _ => .nan
  | _, .nan => .nan
  | .pinf, .ninf => .nan
  | .ninf, .pinf => .nan
  | .pinf, _ => .pinf
  | _, .pinf => .pinf
  | .ninf, _ => .ninf
  | _, .ninf => .ninf
  | .fin a, .fin b => .fin (a + b)

/-- Python float division by a finite value: division by zero raises
`ZeroDivisionError` (modelled as `.error ()`), and an infinity divided
by a finite nonzero value keeps or flips its sign. -/
def pyDivQ (v : PyVal) (b : ℚ) : Except Unit PyVal :=
  if b = 0 then .error ()
  else match v with
    | .fin a => .ok (.fin (a / b))
    | .pinf => .ok (if 0 < b then .pinf else .ninf)
    | .ninf => .ok (if 0 < b then .ninf else .pinf)
    | .nan => .ok .nan

/-- Sum of a list of float values, as the Python statistics module
behaves on them (any plus infinity with no minus infinity gives plus
infinity, and so on). -/
def pySum (l : List PyVal) : PyVal :=
  l.foldl pyAdd (.fin 0)

/-- Model of `statistics.mean`: raises on the empty list, otherwise the
sum divided by the length. -/
def pyMean (l : List PyVal) : Except Unit PyVal :=
  if l.isEmpty then .error ()
  else pyDivQ (pySum l) (l.length : ℚ)

/-- Model of `statistics.median`: sort, take the middle element (odd
length) or the average of the two middle elements (even length); raises
on the empty list. -/
def pyMedian (l : List PyVal) : Except Unit PyVal :=
  let s := l.mergeSort pyLe
  let n := l.length
  if n = 0 then .error ()
  else if n % 2 = 1 then .ok (s.getD (n / 2) .nan)
  else pyDivQ (pyAdd (s.getD (n / 2 - 1) .nan) (s.getD (n / 2) .nan)) 2

/-- First-occurrence key list of a Python dict filled in list order:
keeps each key at the position where it was first inserted. -/
def pyDedup {α : Type} [DecidableEq α] (l : List α) : List α :=
  l.foldl (fun acc x => if x ∈ acc then acc else acc ++ [x]) []

/-- Fuel-driven worker for `removeAll`: at each position, if the
pattern matches, skip it and continue past it; otherwise keep the
character.  One unit of fuel is spent per step, and each step consumes
at least one character, so fuel equal to the string length suffices. -/
def removeAllGo (pat : List Char) : ℕ → List Char → List Char
  | _, [] => []
  | 0, s => s
  | n + 1, c :: rest =>
    if !pat.isEmpty && pat.isPrefixOf (c :: rest) then
      removeAllGo pat n ((c :: rest).drop pat.length)
    else
      c :: removeAllGo pat n rest

/-- Model of the Python string method replacing `pat` by the empty
string: remove every non-overlapping occurrence of `pat`, scanning left
to right. -/
def removeAll (pat s : List Char) : List Char :=
  removeAllGo pat s.length s

/-- Base-name stripping used by the comparator: remove every occurrence
of the substring "our", then every occurrence of the substring
"rxJava". -/
def stripBase (s : String) : String :=
  ⟨removeAll "rxJava".toList (removeAll "our".toList s.data)⟩

/-- One benchmark measurement (the `BenchmarkResult` dataclass of the
script). -/
structure BenchmarkResult where
  benchmark : String
  category : String
  impl_type : String
  size : ℤ
  score : ℚ
  error : ℚ
  unit : String
deriving DecidableEq, Repr

/-- Model of `group_by_category`, viewed as the bucket contents of the
category dict: records are appended to the bucket of their category in
input order. -/
def group_by_category (results : List BenchmarkResult) :
    String → List BenchmarkResult :=
  results.foldl
    (fun m r => fun c => if c = r.category then m c ++ [r] else m c)
    (fun _ => [])

/-- Key list of the `group_by_category` dict, in insertion order. -/
def categoryKeys (results : List BenchmarkResult) : List String :=
  pyDedup (results.map (·.category))

/-- Pairing key of one record in the comparator: the category, a dot,
and the stripped base name. -/
def recKey (r : BenchmarkResult) : String :=
  r.category ++ "." ++ stripBase r.benchmark

/-- Model of `compare_implementations`, viewed as the contents of the
nested dict indexed by key, size and implementation type: each record
overwrites the cell for its triple, so the last record wins. -/
def compare_implementations (results : List BenchmarkResult) :
    String → ℤ → String → Option BenchmarkResult :=
  results.foldl
    (fun m r => fun k sz i =>
      if k = recKey r ∧ sz = r.size ∧ i = r.impl_type then some r else m k sz i)
    (fun _ _ _ => none)

/-- Outer keys of the comparator dict, in insertion order. -/
def cmpKeys (results : List BenchmarkResult) : List String :=
  pyDedup (results.map recKey)

/-- Inner size keys of one comparator bucket, in insertion order. -/
def cmpSizes (results : List BenchmarkResult) (k : String) : List ℤ :=
  pyDedup ((results.filter (fun r => recKey r = k)).map (·.size))

/-- All (key, size) pairs visited by the nested loops over the
comparator dict. -/
def cmpCells (results : List BenchmarkResult) : List (String × ℤ) :=
  (cmpKeys results).flatMap (fun k => (cmpSizes results k).map (fun sz => (k, sz)))

/-- Model of `calculate_speedup`: percentage improvement, plus infinity
when the reference score is zero.  Total — it never raises. -/
def calculate_speedup (our_score rxjava_score : ℚ) : PyVal :=
  if rxjava_score = 0 then .pinf
  else .fin ((our_score / rxjava_score - 1) * 100)

/-- Cells holding both an "our" record and an "rxJava" record: the
comparable cells. -/
def comparableCells (results : List BenchmarkResult) : List (String × ℤ) :=
  (cmpCells results).filter (fun c =>
    (compare_implementations results c.1 c.2 "our").isSome &&
    (compare_implementations results c.1 c.2 "rxJava").isSome)

/-- Speedup list built by `print_overall_summary`: one speedup per
comparable cell, in cell-iteration order. -/
def overallSpeedups (results : List BenchmarkResult) : List PyVal :=
  (cmpCells results).filterMap (fun c =>
    match compare_implementations results c.1 c.2 "our",
          compare_implementations results c.1 c.2 "rxJava" with
    | some o, some r => some (calculate_speedup o.score r.score)
    | _, _ => none)

/-- Buckets of the win counter in `print_overall_summary`. -/
inductive Win where
  | ours
  | rxJava
  | tie
deriving DecidableEq, Repr

/-- Classification of one speedup: above 5 the "our" implementation
wins, below minus 5 the reference wins, otherwise it is a tie. -/
def classify (s : PyVal) : Win :=
  if pyLt (.fin 5) s then .ours
  else if pyLt s (.fin (-5)) then .rxJava
  else .tie

/-- One entry of the win counter dict. -/
def winCount (results : List BenchmarkResult) (w : Win) : ℕ :=
  ((overallSpeedups results).map classify).count w

/-- Mean of the speedups as computed by `print_overall_summary`, guarded
by the emptiness test in the source (`none` when there are no comparable
cells). -/
def overallMean (results : List BenchmarkResult) : Option (Except Unit PyVal) :=
  if overallSpeedups results = [] then none
  else some (pyMean (overallSpeedups results))

/-- Median of the speedups as computed by `print_overall_summary`,
guarded by the emptiness test in the source. -/
def overallMedian (results : List BenchmarkResult) : Option (Except Unit PyVal) :=
  if overallSpeedups results = [] then none
  else some (pyMedian (overallSpeedups results))

/-- Modelled from the spec (not from the source): the mean the spec
prescribes, computed only over the comparable cells whose speedup is
finite.  Used to compare the aggregation policy of the spec with the one
of the source. -/
def specFiniteMean (results : List BenchmarkResult) : Option (Except Unit PyVal) :=
  let fins := (overallSpeedups results).filter (fun s =>
    match s with | .fin _ => true | _ => false)
  if fins = [] then none else some (pyMean fins)

/-- Scalability key of one record: the category, a dot, and the raw
tagged benchmark name (not the stripped base name). -/
def scalKey (r : BenchmarkResult) : String :=
  r.category ++ "." ++ r.benchmark

/-- Zipped sizes and scores lists of one scalability bucket: the
(size, score) points of the records of the key, in input order. -/
def scalPoints (results : List BenchmarkResult) (k : String) : List (ℤ × ℚ) :=
  (results.filter (fun r => scalKey r = k)).map (fun r => (r.size, r.score))

/-- Order used by Python `sorted` on the zipped (size, score) tuples:
lexicographic on (size, score). -/
def pairLe (a b : ℤ × ℚ) : Bool :=
  decide (a.1 < b.1) || (decide (a.1 = b.1) && decide (a.2 ≤ b.2))

/-- Sorted point list of one scalability key (ascending, lexicographic
on (size, score)). -/
def scalSorted (results : List BenchmarkResult) (k : String) : List (ℤ × ℚ) :=
  (scalPoints results k).mergeSort pairLe

/-- Consecutive pairs of a list, as visited by the degradation loop
running over indices 1 to the length. -/
def consecPairs {α : Type} (l : List α) : List (α × α) :=
  l.zip l.tail

/-- Body of the degradation loop for one consecutive pair: the size
ratio raises when the previous size is zero; the score ratio is the
previous score over the current score when the current score is
positive, else plus infinity; the normalized degradation divides the
score ratio by the size ratio and raises when the size ratio is zero. -/
def degradationStep (prev_size curr_size : ℤ) (prev_score curr_score : ℚ) :
    Except Unit PyVal :=
  if prev_size = 0 then .error ()
  else
    let size_ratio : ℚ := (curr_size : ℚ) / (prev_size : ℚ)
    let score_ratio : PyVal :=
      if 0 < curr_score then .fin (prev_score / curr_score) else .pinf
    pyDivQ score_ratio size_ratio

/-- Sequential run of a fallible step over a list, stopping at the
first raise — the shape of the Python accumulation loop. -/
def exceptMap {α β : Type} (f : α → Except Unit β) : List α → Except Unit (List β)
  | [] => .ok []
  | x :: xs =>
    match f x with
    | .error e => .error e
    | .ok y =>
      match exceptMap f xs with
      | .error e => .error e
      | .ok ys => .ok (y :: ys)

/-- Degradation list of one key, assuming the source computes it: the
loop aborts with the exception of the first failing pair. -/
def scalDegradList (results : List BenchmarkResult) (k : String) :
    Except Unit (List PyVal) :=
  exceptMap (fun pc => degradationStep pc.1.1 pc.2.1 pc.1.2 pc.2.2)
    (consecPairs (scalSorted results k))

/-- Degradations entry of one scalability bucket: present only when the
key has more than one point; absent otherwise. -/
def scalDegradations (results : List BenchmarkResult) (k : String) :
    Option (Except Unit (List PyVal)) :=
  if 1 < (scalPoints results k).length then some (scalDegradList results k)
  else none

/-- Average-degradation entry of one scalability bucket: the mean of
the degradation list when that list is nonempty, zero when it is empty,
absent when it was never computed; a raise in the loop propagates. -/
def scalAvg (results : List BenchmarkResult) (k : String) :
    Option (Except Unit PyVal) :=
  match scalDegradations results k with
  | none => none
  | some (.error e) => some (.error e)
  | some (.ok ds) => some (if ds.isEmpty then .ok (.fin 0) else pyMean ds)

/-- Identifier of one opportunity entry: the bench key followed by the
size annotation, exactly as the report formats it. -/
def oppIdent (c : String × ℤ) : String :=
  c.1 ++ " (size=" ++ toString c.2 ++ ")"

/-- Unsorted opportunity list: one entry per comparable cell whose
speedup is below minus 20, in cell-iteration order. -/
def oppUnsorted (results : List BenchmarkResult) : List (String × PyVal) :=
  (cmpCells results).filterMap (fun c =>
    match compare_implementations results c.1 c.2 "our",
          compare_implementations results c.1 c.2 "rxJava" with
    | some o, some r =>
        let s := calculate_speedup o.score r.score
        if pyLt s (.fin (-20)) then some (oppIdent c, s) else none
    | _, _ => none)

/-- Model of `identify_optimization_opportunities`: the opportunity
list sorted ascending by speedup. -/
def identify_optimization_opportunities (results : List BenchmarkResult) :
    List (String × PyVal) :=
  (oppUnsorted results).mergeSort (fun a b => pyLe a.2 b.2)

/-- C1: for all scores o and r, `calculate_speedup` returns the exact
percentage `(o / r - 1) * 100` when r is nonzero and plus infinity when
r is zero, as a total function (it never raises); in particular the
speedup of a score against itself is 0 for every nonzero score, and the
speedup against a zero reference is plus infinity. -/
theorem calculate_speedup_spec (o r x : ℚ) (hr : r ≠ 0) (hx : x ≠ 0) :
    calculate_speedup o r = .fin ((o / r - 1) * 100) ∧
    calculate_speedup o 0 = .pinf ∧
    calculate_speedup x x = .fin 0 := by
  refine ⟨?_, ?_, ?_⟩
  · simp [calculate_speedup, hr]
  · simp [calculate_speedup]
  · simp [calculate_speedup, hx, div_self hx]

/-- Witness for C1 at concrete scores. -/
theorem calculate_speedup_spec_witness :
    calculate_speedup 7 2 = .fin 250 ∧ calculate_speedup 7 0 = .pinf ∧
    calculate_speedup 3 3 = .fin 0 := by
  obtain ⟨h1, h2, h3⟩ := calculate_speedup_spec 7 2 3 (by norm_num) (by norm_num)
  refine ⟨?_, h2, h3⟩
  rw [h1]; norm_num

/-- C9: on the empty record list the categorizer yields the empty map
(and no category keys), the comparator yields the empty cell structure,
and the opportunity ranker yields the empty list; all are total
functions, so nothing raises. -/
theorem empty_input_empty_results :
    group_by_category [] = (fun _ => []) ∧
    categoryKeys [] = [] ∧
    compare_implementations [] = (fun _ _ _ => none) ∧
    cmpCells [] = [] ∧
    comparableCells [] = [] ∧
    identify_optimization_opportunities [] = [] := by
  refine ⟨rfl, rfl, rfl, rfl, rfl, ?_⟩
  simp [identify_optimization_opportunities, oppUnsorted, cmpCells, cmpKeys,
    pyDedup, List.mergeSort]

/-- When the pattern occurs nowhere in the string, the removal loop
leaves the string unchanged, whatever the fuel. -/
theorem removeAllGo_no_occurrence (pat : List Char) :
    ∀ (n : ℕ) (s : List Char), ¬ pat <:+: s → removeAllGo pat n s = s := by
  intro n
  induction n with
  | zero => intro s _; cases s <;> rfl
  | succ n ih =>
    intro s hs
    cases s with
    | nil => rfl
    | cons c rest =>
      have hpre : pat.isPrefixOf (c :: rest) = false := by
        by_contra h
        exact hs (List.IsPrefix.isInfix
          (List.isPrefixOf_iff_prefix.mp (by revert h; cases pat.isPrefixOf (c :: rest) <;> simp)))
      simp only [removeAllGo, hpre, Bool.and_false, if_neg, Bool.false_eq_true,
        not_false_eq_true, List.cons.injEq, true_and]
      exact ih rest (fun h => hs (List.infix_cons h))

/-- When the pattern occurs nowhere in the string, removal leaves the
string unchanged. -/
theorem removeAll_no_occurrence (pat s : List Char) (h : ¬ pat <:+: s) :
    removeAll pat s = s :=
  removeAllGo_no_occurrence pat s.length s h

/-- C5 (amended): a benchmark name containing neither tag substring is
unaffected by the base-name stripping of the comparator, and on such
names stripping is idempotent.  (As stated in the spec the claim is
false: removal of every substring occurrence is neither idempotent nor
order-independent in general, see the counterexample below.) -/
theorem stripBase_of_no_tag (s : String)
    (h1 : ¬ "our".toList <:+: s.data) (h2 : ¬ "rxJava".toList <:+: s.data) :
    stripBase s = s ∧ stripBase (stripBase s) = stripBase s := by
  obtain ⟨d⟩ := s
  have hs : stripBase ⟨d⟩ = ⟨d⟩ := by
    show (⟨removeAll "rxJava".toList (removeAll "our".toList d)⟩ : String) = ⟨d⟩
    rw [removeAll_no_occurrence _ _ h1, removeAll_no_occurrence _ _ h2]
  exact ⟨hs, by rw [hs]; exact hs⟩

/-- Witness for the amended C5 at a concrete clean name. -/
theorem stripBase_of_no_tag_witness :
    stripBase "Get" = "Get" ∧ stripBase (stripBase "Get") = stripBase "Get" :=
  stripBase_of_no_tag "Get" (by decide) (by decide)

/-- Counterexample to C5 as stated: stripping is not idempotent (the
name "ouourr" strips to "our", which strips again to the empty string),
and removing the two tag substrings is not order-independent (on
"orxJavaur" the two orders give "our" and the empty string). -/
theorem stripBase_not_idempotent :
    stripBase (stripBase "ouourr") ≠ stripBase "ouourr" ∧
    removeAll "rxJava".toList (removeAll "our".toList "orxJavaur".toList) ≠
      removeAll "our".toList (removeAll "rxJava".toList "orxJavaur".toList) := by
  constructor <;> decide

/-- C10: the comparator cell for a (key, size, implementation) triple
holds exactly the last record in input order whose key, size and
implementation match: each later matching record silently overwrites
the earlier ones, and a triple with no matching record has no cell. -/
theorem compare_implementations_last_wins (results : List BenchmarkResult)
    (k : String) (sz : ℤ) (i : String) :
    compare_implementations results k sz i =
      (results.filter (fun r =>
        decide (k = recKey r ∧ sz = r.size ∧ i = r.impl_type))).getLast? := by
  induction results using List.reverseRecOn with
  | nil => rfl
  | append_singleton l r ih =>
    unfold compare_implementations at ih ⊢
    rw [List.foldl_append, List.foldl_cons, List.foldl_nil, List.filter_append]
    by_cases hc : k = recKey r ∧ sz = r.size ∧ i = r.impl_type
    · simp [hc]
    · simp [hc, ih]

/-- Accumulator form: folding fresh elements onto a duplicate-free
accumulator keeps it duplicate-free. -/
theorem pyDedup_nodup_aux {α : Type} [DecidableEq α] :
    ∀ (l acc : List α), acc.Nodup →
      (l.foldl (fun acc x => if x ∈ acc then acc else acc ++ [x]) acc).Nodup := by
  intro l
  induction l with
  | nil => intro acc h; exact h
  | cons x xs ih =>
    intro acc h
    simp only [List.foldl_cons]
    by_cases hx : x ∈ acc
    · simpa [hx] using ih acc h
    · have hn : (acc ++ [x]).Nodup := by simp [List.nodup_append, h, hx]
      simpa [hx] using ih _ hn

/-- Key lists of the modelled dicts are duplicate-free. -/
theorem pyDedup_nodup {α : Type} [DecidableEq α] (l : List α) :
    (pyDedup l).Nodup :=
  pyDedup_nodup_aux l [] List.nodup_nil

/-- Tagged flattening of duplicate-free inner lists over duplicate-free
outer keys is duplicate-free. -/
theorem nodup_flatMap_pairs {κ β : Type} (ks : List κ) (f : κ → List β)
    (hks : ks.Nodup) (hf : ∀ k, (f k).Nodup) :
    (ks.flatMap fun k => (f k).map (fun b => (k, b))).Nodup := by
  induction ks with
  | nil => simp
  | cons k ks ih =>
    rw [List.flatMap_cons, List.nodup_append]
    obtain ⟨hk, hks'⟩ := List.nodup_cons.mp hks
    refine ⟨(hf k).map (fun a b hab => by simpa using hab), ih hks', ?_⟩
    intro a h1 h2
    simp only [List.mem_map] at h1
    obtain ⟨b, _, rfl⟩ := h1
    simp only [List.mem_flatMap, List.mem_map] at h2
    obtain ⟨k', hk', b', _, hb'⟩ := h2
    obtain ⟨rfl, rfl⟩ := Prod.mk.injEq .. ▸ hb'
    exact hk hk'

/-- Cell list of the comparator is duplicate-free: one entry per
distinct (key, size) pair. -/
theorem cmpCells_nodup (results : List BenchmarkResult) :
    (cmpCells results).Nodup := by
  unfold cmpCells
  exact nodup_flatMap_pairs _ _ (pyDedup_nodup _) (fun k => pyDedup_nodup _)

/-- Counts of the three win buckets over any classification list sum to
its length. -/
theorem count_win_sum (l : List Win) :
    l.count .ours + l.count .rxJava + l.count .tie = l.length := by
  induction l with
  | nil => rfl
  | cons w l ih =>
    cases w <;> simp [List.count_cons, ih] <;> omega

/-- Lists filtered by a predicate and mapped through a partial function
succeeding exactly on that predicate have the same length. -/
theorem length_filterMap_eq_length_filter {α β : Type}
    (f : α → Option β) (p : α → Bool) (h : ∀ a, (f a).isSome = p a) :
    ∀ l : List α, (l.filterMap f).length = (l.filter p).length := by
  intro l
  induction l with
  | nil => rfl
  | cons a l ih =>
    have ha := h a
    cases hfa : f a with
    | none =>
      rw [hfa] at ha
      simp [List.filterMap_cons, List.filter_cons, hfa, ← ha, ih]
    | some b =>
      rw [hfa] at ha
      simp [List.filterMap_cons, List.filter_cons, hfa, ← ha, ih]

/-- One speedup is recorded per comparable cell. -/
theorem length_overallSpeedups (results : List BenchmarkResult) :
    (overallSpeedups results).length = (comparableCells results).length := by
  unfold overallSpeedups comparableCells
  apply length_filterMap_eq_length_filter
  intro c
  cases h1 : compare_implementations results c.1 c.2 "our" <;>
    cases h2 : compare_implementations results c.1 c.2 "rxJava" <;>
      simp [h1, h2]

/-- C2: the comparable cells are pairwise distinct; every speedup is
classified into exactly one of the three win buckets (ours above 5,
reference below minus 5, tie otherwise), and the three win counts of
the overall summary sum to the total number of comparable cells. -/
theorem overall_summary_partition (results : List BenchmarkResult) :
    (comparableCells results).Nodup ∧
    winCount results .ours + winCount results .rxJava + winCount results .tie =
      (comparableCells results).length ∧
    (∀ s : PyVal,
      (classify s = .ours ↔ pyLt (.fin 5) s = true) ∧
      (classify s = .rxJava ↔ (pyLt (.fin 5) s = false ∧ pyLt s (.fin (-5)) = true)) ∧
      (classify s = .tie ↔ (pyLt (.fin 5) s = false ∧ pyLt s (.fin (-5)) = false))) := by
  refine ⟨(cmpCells_nodup results).filter _, ?_, ?_⟩
  · unfold winCount
    rw [count_win_sum, List.length_map, length_overallSpeedups]
  · intro s
    cases hb1 : pyLt (.fin 5) s <;> cases hb2 : pyLt s (.fin (-5)) <;>
      simp [classify, hb1, hb2]

/-- Folding float addition over values that are finite or plus infinity
gives plus infinity as soon as the accumulator is plus infinity or the
list contains it. -/
theorem foldl_pyAdd_pinf :
    ∀ (l : List PyVal) (acc : PyVal),
      (∀ s ∈ l, s = .pinf ∨ ∃ q, s = .fin q) →
      (acc = .pinf ∨ (∃ q, acc = .fin q) ∧ .pinf ∈ l) →
      l.foldl pyAdd acc = .pinf := by
  intro l
  induction l with
  | nil =>
    intro acc _ h
    rcases h with h | ⟨_, hmem⟩
    · simpa using h
    · cases hmem
  | cons s l ih =>
    intro acc hall hcase
    simp only [List.foldl_cons]
    have hrest : ∀ t ∈ l, t = .pinf ∨ ∃ q, t = .fin q :=
      fun t ht => hall t (List.mem_cons_of_mem _ ht)
    rcases hcase with hacc | ⟨⟨q, hq⟩, hmem⟩
    · apply ih _ hrest
      left
      rcases hall s (List.mem_cons_self ..) with rfl | ⟨p, rfl⟩ <;> simp [hacc, pyAdd]
    · rcases List.mem_cons.mp hmem with rfl | hmem'
      · apply ih _ hrest
        left; simp [hq, pyAdd]
      · rcases hall s (List.mem_cons_self ..) with rfl | ⟨p, rfl⟩
        · apply ih _ hrest
          left; simp [hq, pyAdd]
        · apply ih _ hrest
          right
          exact ⟨⟨q + p, by simp [hq, pyAdd]⟩, hmem'⟩

/-- Every speedup the overall summary collects is finite or plus
infinity (never minus infinity or NaN). -/
theorem overallSpeedups_shape (results : List BenchmarkResult) :
    ∀ s ∈ overallSpeedups results, s = .pinf ∨ ∃ q, s = .fin q := by
  intro s hs
  unfold overallSpeedups at hs
  rw [List.mem_filterMap] at hs
  obtain ⟨c, _, hc⟩ := hs
  cases h1 : compare_implementations results c.1 c.2 "our" with
  | none => rw [h1] at hc; simp at hc
  | some o =>
    cases h2 : compare_implementations results c.1 c.2 "rxJava" with
    | none => rw [h1, h2] at hc; simp at hc
    | some w =>
      rw [h1, h2] at hc
      simp only [Option.some.injEq] at hc
      rw [← hc]
      unfold calculate_speedup
      by_cases hw : w.score = 0
      · left; simp [hw]
      · right
        refine ⟨(o.score / w.score - 1) * 100, ?_⟩
        simp [hw]

/-- C3 (amended): the overall summary computes its mean and median over
the speedups of all comparable cells with no exclusion of infinite
values; a cell with zero reference score contributes plus infinity,
which is still classified as an ours-win and makes the reported mean
plus infinity. -/
theorem overall_mean_includes_infinite (results : List BenchmarkResult)
    (h : PyVal.pinf ∈ overallSpeedups results) :
    overallMean results = some (.ok .pinf) ∧
    overallMedian results = some (pyMedian (overallSpeedups results)) ∧
    (overallSpeedups results).length = (comparableCells results).length ∧
    classify .pinf = .ours := by
  have hne : overallSpeedups results ≠ [] := fun he => by rw [he] at h; cases h
  have hsum : pySum (overallSpeedups results) = .pinf :=
    foldl_pyAdd_pinf _ _ (overallSpeedups_shape results) (.inr ⟨⟨0, rfl⟩, h⟩)
  refine ⟨?_, ?_, length_overallSpeedups results, by simp [classify, pyLt]⟩
  · unfold overallMean
    rw [if_neg hne]
    unfold pyMean
    rw [if_neg (by simpa using hne), hsum]
    unfold pyDivQ
    have hlen : 0 < (overallSpeedups results).length := List.length_pos.mpr hne
    rw [if_neg (by positivity)]
    simp [hlen]
  · unfold overallMedian
    rw [if_neg hne]

/-- Concrete record list with two comparable cells: the Get cell has
scores 11 versus 10 (speedup 10), the Put cell has a zero reference
score (speedup plus infinity). -/
def exInfCell : List BenchmarkResult :=
  [⟨"ourGet", "Cache", "our", 100, 11, 0, "u"⟩,
   ⟨"rxJavaGet", "Cache", "rxJava", 100, 10, 0, "u"⟩,
   ⟨"ourPut", "Cache", "our", 100, 5, 0, "u"⟩,
   ⟨"rxJavaPut", "Cache", "rxJava", 100, 0, 0, "u"⟩]

/-- Evaluation of the overall speedup list on the concrete example. -/
theorem exInfCell_speedups : overallSpeedups exInfCell = [.fin 10, .pinf] := by
  have hc : cmpCells exInfCell = [("Cache.Get", 100), ("Cache.Put", 100)] := by decide
  have h1 : compare_implementations exInfCell "Cache.Get" 100 "our" =
      some ⟨"ourGet", "Cache", "our", 100, 11, 0, "u"⟩ := by decide
  have h2 : compare_implementations exInfCell "Cache.Get" 100 "rxJava" =
      some ⟨"rxJavaGet", "Cache", "rxJava", 100, 10, 0, "u"⟩ := by decide
  have h3 : compare_implementations exInfCell "Cache.Put" 100 "our" =
      some ⟨"ourPut", "Cache", "our", 100, 5, 0, "u"⟩ := by decide
  have h4 : compare_implementations exInfCell "Cache.Put" 100 "rxJava" =
      some ⟨"rxJavaPut", "Cache", "rxJava", 100, 0, 0, "u"⟩ := by decide
  rw [overallSpeedups, hc]
  simp only [List.filterMap_cons, List.filterMap_nil, h1, h2, h3, h4]
  norm_num [calculate_speedup]

/-- Counterexample to C3 as stated: on `exInfCell` the source includes
the infinite speedup of the zero-reference cell in both aggregates, so
the reported mean and median are plus infinity, while the finite-only
mean the spec prescribes would be 10. -/
theorem overall_mean_not_finite_only :
    overallMean exInfCell = some (.ok .pinf) ∧
    overallMedian exInfCell = some (.ok .pinf) ∧
    specFiniteMean exInfCell = some (.ok (.fin 10)) ∧
    overallMean exInfCell ≠ specFiniteMean exInfCell := by
  have hm : overallMean exInfCell = some (.ok .pinf) := by
    rw [overallMean, exInfCell_speedups, if_neg (by simp)]
    norm_num [pyMean, pySum, pyAdd, pyDivQ]
  have hs : specFiniteMean exInfCell = some (.ok (.fin 10)) := by
    rw [specFiniteMean, exInfCell_speedups]
    norm_num [pyMean, pySum, pyAdd, pyDivQ]
  refine ⟨hm, ?_, hs, ?_⟩
  · have hsorted : List.mergeSort [PyVal.fin 10, PyVal.pinf] pyLe =
        [PyVal.fin 10, PyVal.pinf] :=
      List.mergeSort_of_sorted (by decide)
    rw [overallMedian, exInfCell_speedups, if_neg (by simp)]
    simp only [pyMedian, hsorted]
    norm_num [List.getD, pyAdd, pyDivQ]
  · rw [hm, hs]; simp

/-- Witness for the amended C3 on the concrete example. -/
theorem overall_mean_includes_infinite_witness :
    overallMean exInfCell = some (.ok .pinf) ∧ classify .pinf = Win.ours := by
  have h := overall_mean_includes_infinite exInfCell
    (by rw [exInfCell_speedups]; simp)
  exact ⟨h.1, h.2.2.2⟩

/-- Concrete record list whose scalability series has a zero previous
size after sorting. -/
def exZeroSize : List BenchmarkResult :=
  [⟨"ourGet", "Cache", "our", 0, 1, 0, "u"⟩,
   ⟨"ourGet", "Cache", "our", 1, 1, 0, "u"⟩]

/-- Counterexample to C4 as stated: with a zero previous size the
degradation loop divides the current size by zero, which raises
`ZeroDivisionError` in Python instead of resolving to plus infinity —
here, the whole scalability computation for the key ends in the error
state. -/
theorem degradation_zero_prev_size_raises :
    scalDegradations exZeroSize "Cache.ourGet" = some (.error ()) ∧
    scalAvg exZeroSize "Cache.ourGet" = some (.error ()) ∧
    degradationStep 0 1 1 1 = .error () := by
  have hp : scalPoints exZeroSize "Cache.ourGet" = [(0, 1), (1, 1)] := by decide
  have hsorted : List.mergeSort [((0 : ℤ), (1 : ℚ)), (1, 1)] pairLe = [(0, 1), (1, 1)] :=
    List.mergeSort_of_sorted (by decide)
  have hd : scalDegradList exZeroSize "Cache.ourGet" = .error () := by
    rw [scalDegradList, scalSorted, hp, hsorted]
    simp [consecPairs, exceptMap, degradationStep]
  have hdeg : scalDegradations exZeroSize "Cache.ourGet" = some (.error ()) := by
    rw [scalDegradations, hp, if_pos (by norm_num), hd]
  refine ⟨hdeg, ?_, by simp [degradationStep]⟩
  rw [scalAvg, hdeg]

/-- C4 (amended): a zero reference score in `calculate_speedup` and a
zero current score in a degradation pair (with positive sizes) both
resolve to plus infinity without raising, but a zero previous size in a
degradation pair raises `ZeroDivisionError` instead of resolving to
infinity. -/
theorem division_by_zero_cases (o prev_score : ℚ) (ps cs : ℤ)
    (hps : 0 < ps) (hcs : 0 < cs) :
    calculate_speedup o 0 = .pinf ∧
    degradationStep ps cs prev_score 0 = .ok .pinf ∧
    (∀ sc sc2 : ℚ, degradationStep 0 cs sc sc2 = .error ()) := by
  refine ⟨by simp [calculate_speedup], ?_, fun sc sc2 => by simp [degradationStep]⟩
  have hps' : (0 : ℚ) < (ps : ℚ) := by exact_mod_cast hps
  have hcs' : (0 : ℚ) < (cs : ℚ) := by exact_mod_cast hcs
  have h2 : 0 < (cs : ℚ) / (ps : ℚ) := div_pos hcs' hps'
  unfold degradationStep
  rw [if_neg (by omega)]
  simp only [lt_irrefl, if_neg (lt_irrefl (0 : ℚ))]
  simp [pyDivQ, h2, h2.ne']

/-- Witness for the amended C4 at concrete values. -/
theorem division_by_zero_cases_witness :
    calculate_speedup 3 0 = .pinf ∧ degradationStep 1 2 7 0 = .ok .pinf ∧
    degradationStep 0 2 7 1 = .error () := by
  obtain ⟨h1, h2, h3⟩ := division_by_zero_cases 3 7 1 2 (by norm_num) (by norm_num)
  exact ⟨h1, h2, h3 7 1⟩

/-- Transitivity of the lexicographic tuple order used for sorting the
scalability points. -/
theorem pairLe_trans (a b c : ℤ × ℚ) (h1 : pairLe a b) (h2 : pairLe b c) :
    pairLe a c := by
  simp only [pairLe, Bool.or_eq_true, Bool.and_eq_true, decide_eq_true_eq] at *
  rcases h1 with h1 | ⟨h1e, h1q⟩ <;> rcases h2 with h2 | ⟨h2e, h2q⟩
  · left; omega
  · left; omega
  · left; omega
  · right; exact ⟨by omega, le_trans h1q h2q⟩

/-- Totality of the lexicographic tuple order. -/
theorem pairLe_total (a b : ℤ × ℚ) : pairLe a b || pairLe b a := by
  simp only [pairLe, Bool.or_eq_true, Bool.and_eq_true, decide_eq_true_eq]
  rcases lt_trichotomy a.1 b.1 with h | h | h
  · exact Or.inl (Or.inl h)
  · rcases le_total a.2 b.2 with hq | hq
    · exact Or.inl (Or.inr ⟨h, hq⟩)
    · exact Or.inr (Or.inr ⟨h.symm, hq⟩)
  · exact Or.inr (Or.inl h)

/-- Value of one degradation step when both sizes and the current score
are positive: the exact quotient of score ratio by size ratio. -/
theorem degradationStep_pos (ps cs : ℤ) (psc csc : ℚ)
    (hps : 0 < ps) (hcs : 0 < cs) (hcsc : 0 < csc) :
    degradationStep ps cs psc csc =
      .ok (.fin ((psc / csc) / ((cs : ℚ) / (ps : ℚ)))) := by
  have hps' : (0 : ℚ) < (ps : ℚ) := by exact_mod_cast hps
  have hcs' : (0 : ℚ) < (cs : ℚ) := by exact_mod_cast hcs
  have hr : 0 < (cs : ℚ) / (ps : ℚ) := div_pos hcs' hps'
  simp [degradationStep, pyDivQ, hcsc, hr.ne', hps.ne']

/-- Value of one degradation step when both sizes are positive and the
current score is not: plus infinity. -/
theorem degradationStep_zero_score (ps cs : ℤ) (psc csc : ℚ)
    (hps : 0 < ps) (hcs : 0 < cs) (hcsc : csc ≤ 0) :
    degradationStep ps cs psc csc = .ok .pinf := by
  have hps' : (0 : ℚ) < (ps : ℚ) := by exact_mod_cast hps
  have hcs' : (0 : ℚ) < (cs : ℚ) := by exact_mod_cast hcs
  have hr : 0 < (cs : ℚ) / (ps : ℚ) := div_pos hcs' hps'
  simp [degradationStep, pyDivQ, not_lt.mpr hcsc, hr, hr.ne', hps.ne']

/-- Sequential fallible mapping where every step succeeds with the same
value yields the constant list. -/
theorem exceptMap_const {α β : Type} (f : α → Except Unit β) (v : β) :
    ∀ l : List α, (∀ x ∈ l, f x = .ok v) →
      exceptMap f l = .ok (l.map fun _ => v) := by
  intro l
  induction l with
  | nil => intro _; rfl
  | cons x xs ih =>
    intro h
    have hx := h x (List.mem_cons_self ..)
    simp [exceptMap, hx, ih (fun t ht => h t (List.mem_cons_of_mem _ ht))]

/-- C6: for a key with at least two points the scalability analyzer
sorts the points ascending by size (a permutation of the collected
points), computes the degradation list over consecutive sorted pairs,
where each step is score ratio over size ratio with the score ratio
plus infinity for a non-positive current score; and on a series where
the score halves exactly as the size doubles every degradation equals
one. -/
theorem scalability_spec (results : List BenchmarkResult) (k : String)
    (h2 : 2 ≤ (scalPoints results k).length) :
    (scalSorted results k).Pairwise (fun a b => a.1 ≤ b.1) ∧
    (scalSorted results k).Perm (scalPoints results k) ∧
    scalDegradations results k = some (scalDegradList results k) ∧
    (∀ (ps cs : ℤ) (psc csc : ℚ), 0 < ps → 0 < cs → 0 < csc →
      degradationStep ps cs psc csc =
        .ok (.fin ((psc / csc) / ((cs : ℚ) / (ps : ℚ))))) ∧
    (∀ (ps cs : ℤ) (psc csc : ℚ), 0 < ps → 0 < cs → csc ≤ 0 →
      degradationStep ps cs psc csc = .ok .pinf) ∧
    ((∀ pc ∈ consecPairs (scalSorted results k),
        0 < pc.1.1 ∧ 0 < pc.1.2 ∧ pc.2.1 = 2 * pc.1.1 ∧ pc.2.2 = pc.1.2 / 2) →
      scalDegradList results k =
        .ok ((consecPairs (scalSorted results k)).map fun _ => .fin 1)) := by
  refine ⟨(List.sorted_mergeSort pairLe_trans pairLe_total _).imp ?_,
    List.mergeSort_perm _ _, ?_,
    fun ps cs psc csc hps hcs hcsc => degradationStep_pos ps cs psc csc hps hcs hcsc,
    fun ps cs psc csc hps hcs hcsc => degradationStep_zero_score ps cs psc csc hps hcs hcsc,
    ?_⟩
  · intro a b hab
    simp only [pairLe, Bool.or_eq_true, Bool.and_eq_true, decide_eq_true_eq] at hab
    rcases hab with h | ⟨h, _⟩
    · exact le_of_lt h
    · exact le_of_eq h
  · rw [scalDegradations, if_pos (by omega)]
  · intro hall
    rw [scalDegradList]
    apply exceptMap_const
    intro pc hpc
    obtain ⟨hp1, hp2, hp3, hp4⟩ := hall pc hpc
    have hcs : (0 : ℤ) < pc.2.1 := by omega
    have hcsc : 0 < pc.2.2 := by rw [hp4]; exact div_pos hp2 two_pos
    rw [degradationStep_pos pc.1.1 pc.2.1 pc.1.2 pc.2.2 hp1 hcs hcsc, hp4, hp3]
    have ha : pc.1.2 ≠ 0 := hp2.ne'
    have hb : ((pc.1.1 : ℤ) : ℚ) ≠ 0 := by
      exact_mod_cast (by omega : (pc.1.1 : ℤ) ≠ 0)
    push_cast
    congr 2
    rw [div_div_div_eq]
    field_simp
    ring

/-- Concrete scalability series where the score halves exactly as the
size doubles. -/
def exHalving : List BenchmarkResult :=
  [⟨"ourSort", "Cache", "our", 100, 8, 0, "u"⟩,
   ⟨"ourSort", "Cache", "our", 200, 4, 0, "u"⟩]

/-- Evaluation of the collected points on the halving example. -/
theorem exHalving_points :
    scalPoints exHalving "Cache.ourSort" = [(100, 8), (200, 4)] := by decide

/-- Evaluation of the sorted points on the halving example. -/
theorem exHalving_sorted :
    scalSorted exHalving "Cache.ourSort" = [(100, 8), (200, 4)] := by
  rw [scalSorted, exHalving_points]
  exact List.mergeSort_of_sorted (by decide)

/-- Witness for C6 on the halving example: the single degradation is
exactly one and the sorted list ascends by size. -/
theorem scalability_spec_witness :
    scalDegradList exHalving "Cache.ourSort" = .ok [.fin 1] ∧
    (scalSorted exHalving "Cache.ourSort").Pairwise (fun a b => a.1 ≤ b.1) := by
  have h := scalability_spec exHalving "Cache.ourSort"
    (by rw [exHalving_points]; norm_num)
  have hprem : ∀ pc ∈ consecPairs (scalSorted exHalving "Cache.ourSort"),
      0 < pc.1.1 ∧ 0 < pc.1.2 ∧ pc.2.1 = 2 * pc.1.1 ∧ pc.2.2 = pc.1.2 / 2 := by
    rw [exHalving_sorted]
    intro pc hpc
    simp only [consecPairs, List.zip, List.tail, List.zipWith, List.mem_singleton] at hpc
    rw [hpc]
    norm_num
  have hconc := h.2.2.2.2.2 hprem
  rw [exHalving_sorted] at hconc
  constructor
  · rw [hconc]
    rfl
  · exact h.1

/-- Sequential fallible mapping that succeeds yields a list of the same
length as the input. -/
theorem exceptMap_ok_length {α β : Type} (f : α → Except Unit β) :
    ∀ (l : List α) (ds : List β), exceptMap f l = .ok ds → ds.length = l.length := by
  intro l
  induction l with
  | nil =>
    intro ds h
    simp only [exceptMap, Except.ok.injEq] at h
    rw [← h]
    rfl
  | cons x xs ih =>
    intro ds h
    simp only [exceptMap] at h
    cases hfx : f x with
    | error e => rw [hfx] at h; simp at h
    | ok y =>
      rw [hfx] at h
      cases hxs : exceptMap f xs with
      | error e => rw [hxs] at h; simp at h
      | ok ys =>
        rw [hxs] at h
        simp only [Except.ok.injEq] at h
        rw [← h]
        simp [ih ys hxs]

/-- C7: the average degradation of a key is present exactly when the
key has at least two points (absent otherwise, so an absent average is
distinguishable from a computed zero), and whenever the degradation
list is computed without raising it is nonempty and the average is its
arithmetic mean. -/
theorem avg_degradation_spec (results : List BenchmarkResult) (k : String) :
    (scalDegradations results k = none ↔ (scalPoints results k).length < 2) ∧
    (scalAvg results k = none ↔ (scalPoints results k).length < 2) ∧
    (∀ ds, scalDegradations results k = some (.ok ds) →
      ds ≠ [] ∧ scalAvg results k = some (pyMean ds)) := by
  have hiff : scalDegradations results k = none ↔ (scalPoints results k).length < 2 := by
    by_cases h : 1 < (scalPoints results k).length
    · rw [scalDegradations, if_pos h]
      simp
      omega
    · rw [scalDegradations, if_neg h]
      simp
      omega
  refine ⟨hiff, ?_, ?_⟩
  · cases hd : scalDegradations results k with
    | none =>
      rw [scalAvg, hd]
      simpa using hiff.mp hd
    | some e =>
      have hne : ¬ (scalPoints results k).length < 2 := by
        intro hlt
        rw [hiff.mpr hlt] at hd
        cases hd
      cases e with
      | error u => rw [scalAvg, hd]; simpa using hne
      | ok ds => rw [scalAvg, hd]; simpa using hne
  · intro ds hd
    have hlen : 1 < (scalPoints results k).length := by
      by_contra hn
      rw [scalDegradations, if_neg hn] at hd
      cases hd
    have hlist : scalDegradList results k = .ok ds := by
      rw [scalDegradations, if_pos hlen] at hd
      injection hd
    have hdslen : ds.length = (scalPoints results k).length - 1 := by
      rw [exceptMap_ok_length _ _ ds hlist]
      simp [consecPairs, List.length_zip, List.length_tail, scalSorted]
    have hdne : ds ≠ [] := by
      intro he
      rw [he] at hdslen
      simp at hdslen
      omega
    constructor
    · exact hdne
    · rw [scalAvg, scalDegradations, if_pos hlen, hlist]
      simp [hdne]

/-- Witness for C7 on the halving example: the average is the mean of
the computed degradation list. -/
theorem avg_degradation_spec_witness :
    scalAvg exHalving "Cache.ourSort" = some (pyMean [PyVal.fin 1]) := by
  have hstep : degradationStep 100 200 8 4 = .ok (.fin 1) := by
    rw [degradationStep_pos 100 200 8 4 (by norm_num) (by norm_num) (by norm_num)]
    norm_num
  have hlist : scalDegradList exHalving "Cache.ourSort" = .ok [.fin 1] := by
    rw [scalDegradList, exHalving_sorted]
    simp [consecPairs, exceptMap, hstep]
  have hd : scalDegradations exHalving "Cache.ourSort" = some (.ok [.fin 1]) := by
    rw [scalDegradations, exHalving_points, if_pos (by norm_num), hlist]
  exact ((avg_degradation_spec exHalving "Cache.ourSort").2.2 [.fin 1] hd).2

/-- Transitivity of the float order used for sorting speedups. -/
theorem pyLe_trans (a b c : PyVal) (h1 : pyLe a b) (h2 : pyLe b c) :
    pyLe a c := by
  cases a <;> cases b <;> cases c <;> simp_all [pyLe] <;> exact le_trans h1 h2

/-- Totality of the float order used for sorting speedups. -/
theorem pyLe_total (a b : PyVal) : pyLe a b || pyLe b a := by
  cases a <;> cases b <;> simp [pyLe] <;> exact le_total ..

/-- C8: the opportunity ranker returns a list sorted ascending by
speedup that is a permutation of the unsorted opportunity list, and its
members are exactly the complete cells whose speedup is strictly below
minus 20, rendered as the key and size identifier paired with the
speedup. -/
theorem optimization_opportunities_spec (results : List BenchmarkResult) :
    (identify_optimization_opportunities results).Perm (oppUnsorted results) ∧
    (identify_optimization_opportunities results).Pairwise
      (fun a b => pyLe a.2 b.2 = true) ∧
    (∀ e, e ∈ identify_optimization_opportunities results ↔
      ∃ c ∈ cmpCells results, ∃ o w : BenchmarkResult,
        compare_implementations results c.1 c.2 "our" = some o ∧
        compare_implementations results c.1 c.2 "rxJava" = some w ∧
        pyLt (calculate_speedup o.score w.score) (.fin (-20)) = true ∧
        e = (oppIdent c, calculate_speedup o.score w.score)) := by
  refine ⟨List.mergeSort_perm _ _,
    List.sorted_mergeSort (fun a b c h1 h2 => pyLe_trans a.2 b.2 c.2 h1 h2)
      (fun a b => pyLe_total a.2 b.2) _, ?_⟩
  intro e
  rw [identify_optimization_opportunities, List.mem_mergeSort, oppUnsorted,
    List.mem_filterMap]
  constructor
  · rintro ⟨c, hc, he⟩
    cases h1 : compare_implementations results c.1 c.2 "our" with
    | none => rw [h1] at he; simp at he
    | some o =>
      cases h2 : compare_implementations results c.1 c.2 "rxJava" with
      | none => rw [h1, h2] at he; simp at he
      | some w =>
        rw [h1, h2] at he
        by_cases hlt : pyLt (calculate_speedup o.score w.score) (.fin (-20)) = true
        · refine ⟨c, hc, o, w, h1, h2, hlt, ?_⟩
          simp only [hlt, if_true] at he
          exact (Option.some_inj.mp he).symm
        · simp only [Bool.not_eq_true] at hlt
          simp [hlt] at he
  · rintro ⟨c, hc, o, w, h1, h2, hlt, rfl⟩
    refine ⟨c, hc, ?_⟩
    rw [h1, h2]
    simp [hlt]
